import Mathlib

/-!
Verification of the golf stat tracker core (`src/app.py`): the
`Shot`/`Hole`/`Round` data model with its derived statistics, and the
stepwise shot-entry state machine driven by the Streamlit UI.

Python values are embedded as follows: `int` as `Int` (or `Nat` where the
UI bounds make the value a count), `float` as `ℚ` (the code only ever
compares distances, never does float arithmetic whose rounding could be
observed), `Optional[x]` as `Option`, strings as `String`.  The Python
`in` substring test is embedded as character-list infix.
-/

namespace GolfTracker

/-- Python's `d in s` substring test on strings. -/
def strIn (d s : String) : Prop := d.data <:+: s.data

instance (d s : String) : Decidable (strIn d s) := by
  unfold strIn; infer_instance

/-- `Shot` dataclass from `src/app.py`. -/
structure Shot where
  shot_number : Int
  distance : Option ℚ
  start_lie : String
  end_lie : String
  distance_to_hole : Option ℚ := none
deriving DecidableEq, Repr

/-- `Shot.is_putt`: `self.start_lie == "green"`. -/
def Shot.is_putt (s : Shot) : Bool := s.start_lie == "green"

/-- `Shot.category`.  The third guard is Python
`if self.distance and self.distance > 100:`: `self.distance` is truthy
exactly when it is neither `None` nor `0.0`. -/
def Shot.category (s : Shot) : String :=
  if s.is_putt then "putting"
  else if s.shot_number == 1 then "tee"
  else if (match s.distance with
           | some d => decide (d ≠ 0) && decide (d > 100)
           | none => false) then "approach"
  else "short_game"

/-- `Shot.direction`: the `for d in ["left","right","short","long"]`
loop unrolled, then the exact-match fallbacks. -/
def Shot.direction (s : Shot) : String :=
  if strIn "left" s.end_lie then "left"
  else if strIn "right" s.end_lie then "right"
  else if strIn "short" s.end_lie then "short"
  else if strIn "long" s.end_lie then "long"
  else if s.end_lie = "fairway" ∨ s.end_lie = "green" then "center"
  else if s.end_lie = "hole" then "hole"
  else "unknown"

/-- `Hole` dataclass from `src/app.py`. -/
structure Hole where
  hole_number : Int
  par : Int
  yardage : Int
  shots : List Shot := []
deriving DecidableEq, Repr

/-- `Hole.strokes`: `len(self.shots)`. -/
def Hole.strokes (h : Hole) : Nat := h.shots.length

/-- `Hole.putts`: `sum(s.is_putt() for s in self.shots)`. -/
def Hole.putts (h : Hole) : Nat := (h.shots.filter Shot.is_putt).length

/-- `Hole.fairway_result`: `None` if `par < 4` or no shots, else the
direction of `self.shots[0]`. -/
def Hole.fairway_result (h : Hole) : Option String :=
  if h.par < 4 ∨ h.shots.length = 0 then none
  else
    match h.shots with
    | [] => none
    | s :: _ => some s.direction

/-- Loop body of `Hole.gir`: `i` is the 0-based `enumerate` index. -/
def girAux (par : Int) : Nat → List Shot → Bool
  | _, [] => false
  | i, s :: rest =>
    if s.end_lie == "green" then decide ((i + 1 : Int) ≤ par - 2)
    else girAux par (i + 1) rest

/-- `Hole.gir`: scan shots in order; at the first shot whose
`end_lie == "green"` return whether its 1-based index is `≤ par - 2`;
`False` when no shot reaches the green. -/
def Hole.gir (h : Hole) : Bool := girAux h.par 0 h.shots

/-- `Round` dataclass from `src/app.py`.  `holes_played` is 1–18 by the
UI's `number_input` bounds, hence a `Nat`. -/
structure Round where
  player_name : String
  course_name : String
  holes_played : Nat
  course_par : Int
  holes : List Hole := []
deriving DecidableEq, Repr

/-- `Round.total_score`: `sum(h.strokes() for h in self.holes)`. -/
def Round.total_score (r : Round) : Nat := (r.holes.map Hole.strokes).sum

/-- `Round.score_vs_par`: `self.total_score() - self.course_par`. -/
def Round.score_vs_par (r : Round) : Int := (r.total_score : Int) - r.course_par

/-- `Round.total_putts`: `sum(h.putts() for h in self.holes)`. -/
def Round.total_putts (r : Round) : Nat := (r.holes.map Hole.putts).sum

/-- Deduplication keeping the first occurrence of each key; `seen`
accumulates the keys already emitted. -/
def uniqueFirstAux (seen : List String) : List String → List String
  | [] => []
  | x :: xs =>
    if x ∈ seen then uniqueFirstAux seen xs
    else x :: uniqueFirstAux (x :: seen) xs

/-- The distinct keys of `xs`, in order of first occurrence. -/
def uniqueFirst (xs : List String) : List String := uniqueFirstAux [] xs

/-- Order on `(key, count, first-occurrence index)` entries: larger count
first, ties by smaller first-occurrence index. -/
def vcRel (a b : String × Nat × Nat) : Prop :=
  b.2.1 < a.2.1 ∨ (a.2.1 = b.2.1 ∧ a.2.2 ≤ b.2.2)

instance : DecidableRel vcRel := by
  unfold vcRel; intro a b; infer_instance

instance : IsTotal (String × Nat × Nat) vcRel where
  total a b := by
    unfold vcRel
    rcases Nat.lt_trichotomy a.2.1 b.2.1 with h | h | h
    · exact Or.inr (Or.inl h)
    · rcases Nat.le_total a.2.2 b.2.2 with h2 | h2
      · exact Or.inl (Or.inr ⟨h, h2⟩)
      · exact Or.inr (Or.inr ⟨h.symm, h2⟩)
    · exact Or.inl (Or.inl h)

instance : IsTrans (String × Nat × Nat) vcRel where
  trans a b c hab hbc := by
    unfold vcRel at *
    rcases hab with h1 | ⟨h1, h1i⟩ <;> rcases hbc with h2 | ⟨h2, h2i⟩
    · exact Or.inl (h2.trans h1)
    · exact Or.inl (h2 ▸ h1)
    · exact Or.inl (h1 ▸ h2)
    · exact Or.inr ⟨h1.trans h2, h1i.trans h2i⟩

/-- Modelled from the spec: the repository computes its frequency tables
with `pandas.Series.value_counts` (library code, not in `src/`), which
orders by descending count but leaves the order among tied counts
unspecified; the spec (§4.3, §9) fixes the documented deterministic
choice — descending count, ties broken by first occurrence in the input
sequence.  Each distinct key is annotated with its count and its
first-occurrence index and the entries are sorted by that total order. -/
def value_counts (xs : List String) : List (String × Nat) :=
  (List.insertionSort vcRel
    ((uniqueFirst xs).map (fun k => (k, xs.count k, xs.indexOf k)))).map
    (fun t => (t.1, t.2.1))

/-- Python truthiness filter `if h.fairway_result()`: keeps values that
are neither `None` nor the empty string. -/
def truthyStr : Option String → Option String
  | none => none
  | some s => if s = "" then none else some s

/-- The list built by `Round.fairway_stats`:
`[h.fairway_result() for h in self.holes if h.fairway_result()]`. -/
def Round.fairwayResults (r : Round) : List String :=
  r.holes.filterMap (fun h => truthyStr h.fairway_result)

/-- `Round.fairway_stats`: `pd.Series(results).value_counts()`. -/
def Round.fairway_stats (r : Round) : List (String × Nat) :=
  value_counts r.fairwayResults

/-- `Round.gir_stats`: `(sum(h.gir() for h in self.holes), len(self.holes))`. -/
def Round.gir_stats (r : Round) : Nat × Nat :=
  ((r.holes.filter Hole.gir).length, r.holes.length)

/-- All shots of the round, holes in order, shots in order within a hole. -/
def Round.allShots (r : Round) : List Shot := r.holes.flatMap Hole.shots

/-- The `dirs` list built by `Round.directional_bias`: every shot's
direction across all holes, excluding `"center"` and `"hole"`. -/
def Round.biasDirs (r : Round) : List String :=
  (r.allShots.map Shot.direction).filter (fun d => !(d == "center" || d == "hole"))

/-- `Round.directional_bias`: `pd.Series(dirs).value_counts()`. -/
def Round.directional_bias (r : Round) : List (String × Nat) :=
  value_counts r.biasDirs

/-- The `buckets` dict of `Round.strokes_by_category`. -/
structure Buckets where
  tee : Nat
  approach : Nat
  short_game : Nat
  putting : Nat
deriving DecidableEq, Repr

/-- `buckets[c] += 1`; `none` models the `KeyError` Python would raise
for a key outside the four initialised categories. -/
def bumpBucket (b : Buckets) (c : String) : Option Buckets :=
  if c = "tee" then some { b with tee := b.tee + 1 }
  else if c = "approach" then some { b with approach := b.approach + 1 }
  else if c = "short_game" then some { b with short_game := b.short_game + 1 }
  else if c = "putting" then some { b with putting := b.putting + 1 }
  else none

/-- `Round.strokes_by_category`: buckets initialised to zero for the four
categories, incremented per shot over holes then shots in order. -/
def Round.strokes_by_category (r : Round) : Option Buckets :=
  r.allShots.foldlM (fun b s => bumpBucket b s.category) ⟨0, 0, 0, 0⟩

/-- The Streamlit session state (lines 131–142 of `src/app.py`): the
`round`, `current_hole`, `current_shot` and `current_hole_obj` keys.
`hole_pars` / `hole_yardages` are initialised but never read, so they are
omitted. -/
structure AppState where
  round : Option Round
  current_hole : Nat
  current_shot : Nat
  current_hole_obj : Option Hole
deriving DecidableEq, Repr

/-- The initial session state: no round, hole 1, shot 1, no hole object. -/
def initState : AppState := ⟨none, 1, 1, none⟩

/-- The `end_lie` labels the entry widgets can produce: the top-level
selectbox options `fairway`/`green`/`hole` unchanged, and
`rough`/`bunker`/`water` replaced by the side-refined label of the
follow-up selectbox, so the plain category is never stored. -/
def entryEndLies : List String :=
  ["fairway", "green", "hole",
   "left rough", "right rough", "short rough", "long rough",
   "left bunker", "right bunker", "fairway bunker",
   "left water", "right water", "long water"]

/-- One user interaction with the entry UI.  `dist` and `dth` are the
raw values of the two distance `number_input` widgets; the transition
decides (as the code does) whether each is actually recorded. -/
inductive Event where
  | setupRound (player course : String) (holes_played : Nat) (course_par : Int)
  | startHole (par yardage : Int)
  | addShot (end_lie : String) (dist dth : ℚ)
deriving DecidableEq, Repr

/-- Round setup (lines 150–158): shown only while `round is None`;
constructs the `Round` once player and course are both truthy
(non-empty).  `holes_played` and `course_par` carry the `number_input`
bounds. -/
def stepSetup (st : AppState) (player course : String) (hp : Nat) (cp : Int) :
    Option AppState :=
  match st.round with
  | some _ => none
  | none =>
    if player ≠ "" ∧ course ≠ "" ∧ 1 ≤ hp ∧ hp ≤ 18 ∧ 9 ≤ cp ∧ cp ≤ 72 then
      some { st with round := some ⟨player, course, hp, cp, []⟩ }
    else none

/-- Hole setup (lines 165–171): shown when a round exists and
`current_hole_obj is None`; the "Start Hole" button constructs the
in-progress `Hole` and resets `current_shot` to 1.  `par` and `yardage`
carry the `number_input` bounds. -/
def stepStartHole (st : AppState) (par yardage : Int) : Option AppState :=
  match st.round, st.current_hole_obj with
  | some _, none =>
    if 3 ≤ par ∧ par ≤ 5 ∧ 50 ≤ yardage ∧ yardage ≤ 800 then
      some { st with
        current_hole_obj := some ⟨(st.current_hole : Int), par, yardage, []⟩,
        current_shot := 1 }
    else none
  | _, _ => none

/-- The `Shot` constructed by the "Add Shot" handler: `distance` is
recorded only when `start_lie != "green"`, `distance_to_hole` only when
`end_lie == "green"`. -/
def mkShot (shot_number : Nat) (start_lie end_lie : String) (dist dth : ℚ) :
    Shot :=
  ⟨(shot_number : Int),
   if start_lie = "green" then none else some dist,
   start_lie, end_lie,
   if end_lie = "green" then some dth else none⟩

/-- Shot entry (lines 173–210): `start_lie` is `"tee"` for shot 1 and
otherwise `current_hole_obj.shots[-1].end_lie` (`none` models the
`IndexError` Python would raise were the shot list empty there).  The
"Add Shot" button appends the `Shot`; if `end_lie == "hole"` the hole is
appended to the round, `current_hole` advances and `current_shot`
resets, otherwise `current_shot` advances.  No check against
`holes_played` appears anywhere, mirroring the code. -/
def stepAddShot (st : AppState) (end_lie : String) (dist dth : ℚ) :
    Option AppState :=
  match st.round, st.current_hole_obj with
  | some rnd, some h =>
    if end_lie ∈ entryEndLies ∧ 0 ≤ dist ∧ 0 ≤ dth then
      match (if st.current_shot = 1 then some "tee"
             else (h.shots.getLast?).map Shot.end_lie) with
      | none => none
      | some start_lie =>
        if end_lie = "hole" then
          some { st with
            round := some { rnd with holes := rnd.holes ++
              [{ h with shots := h.shots ++
                [mkShot st.current_shot start_lie end_lie dist dth] }] },
            current_hole := st.current_hole + 1,
            current_shot := 1,
            current_hole_obj := none }
        else
          some { st with
            current_hole_obj := some { h with shots := h.shots ++
              [mkShot st.current_shot start_lie end_lie dist dth] },
            current_shot := st.current_shot + 1 }
    else none
  | _, _ => none

/-- One transition of the entry state machine; `none` means the
interaction is unavailable or blocked in the current state. -/
def step (st : AppState) : Event → Option AppState
  | .setupRound player course hp cp => stepSetup st player course hp cp
  | .startHole par yardage => stepStartHole st par yardage
  | .addShot end_lie dist dth => stepAddShot st end_lie dist dth

/-- Run a sequence of interactions from a state; `none` as soon as one
is blocked. -/
def runTrace : AppState → List Event → Option AppState
  | st, [] => some st
  | st, e :: es =>
    match step st e with
    | some st' => runTrace st' es
    | none => none

/-- The session states reachable from the initial state. -/
inductive Reachable : AppState → Prop
  | init : Reachable initState
  | next {s e s'} : Reachable s → step s e = some s' → Reachable s'

/-- The holes stored in the state's round (empty when no round exists). -/
def AppState.roundHoles (st : AppState) : List Hole :=
  (st.round.map Round.holes).getD []

/-!  ### Spec-side definitions used to state the claims  -/

/-- Written from the spec's words for claim C3: fixed precedence —
putt first, then first shot of the hole, then the strict 100-yard
distance threshold on a present distance, else the fallback. -/
def categorySpec (s : Shot) : String :=
  if s.start_lie = "green" then "putting"
  else if s.shot_number = 1 then "tee"
  else if (match s.distance with
           | some d => decide (100 < d)
           | none => false) then "approach"
  else "short_game"

/-- Written from the spec's words for claim C4: the first keyword of the
fixed list occurring as a substring of `end_lie` wins, else the
exact-match fallbacks. -/
def directionSpec (s : Shot) : String :=
  match ["left", "right", "short", "long"].find?
      (fun d => decide (strIn d s.end_lie)) with
  | some d => d
  | none =>
    if s.end_lie = "fairway" ∨ s.end_lie = "green" then "center"
    else if s.end_lie = "hole" then "hole"
    else "unknown"

/-- Written from the spec's words for claim C5: 0-based index of the
first shot whose `end_lie` is `"green"`; `none` when no shot reaches the
green. -/
def firstGreenIdx : List Shot → Option Nat
  | [] => none
  | s :: rest =>
    if s.end_lie = "green" then some 0 else (firstGreenIdx rest).map (· + 1)

/-- Example shots used in witnesses. -/
def exTeeShot : Shot := ⟨1, some 250, "tee", "fairway", none⟩

def exApproachShot : Shot := ⟨2, some 150, "fairway", "green", some 20⟩

def exHoleOutShot : Shot := ⟨3, none, "green", "hole", none⟩

/-!  ### Claim theorems: shot and hole classification  -/

/-- C3: for every `Shot`, `category()` is total and computed with fixed
precedence: `"putting"` if `start_lie == "green"`, else `"tee"` if
`shot_number == 1`, else `"approach"` if `distance` is present and
strictly greater than 100, else `"short_game"`.  (The code's truthiness
test `self.distance and self.distance > 100` coincides with
"present and strictly greater than 100" since `0.0 > 100` is false.) -/
theorem category_eq_categorySpec (s : Shot) : s.category = categorySpec s := by
  unfold Shot.category categorySpec Shot.is_putt
  cases hd : s.distance with
  | none => simp [hd]
  | some d =>
    by_cases h : (100 : ℚ) < d
    · have hne : d ≠ 0 := by
        intro h0; rw [h0] at h; norm_num at h
      simp [hd, h, hne]
    · simp [hd, h]

/-- C4: for every `Shot`, `direction()` returns the first of
`"left"`, `"right"`, `"short"`, `"long"` (in that fixed order) occurring
as a substring of `end_lie`; if none occurs it returns `"center"` when
`end_lie` is exactly `"fairway"` or `"green"`, `"hole"` when it is
exactly `"hole"`, and `"unknown"` otherwise. -/
theorem direction_eq_directionSpec (s : Shot) : s.direction = directionSpec s := by
  unfold Shot.direction directionSpec
  by_cases h1 : strIn "left" s.end_lie <;>
  by_cases h2 : strIn "right" s.end_lie <;>
  by_cases h3 : strIn "short" s.end_lie <;>
  by_cases h4 : strIn "long" s.end_lie <;>
  simp [List.find?, h1, h2, h3, h4]

/-- Helper: `firstGreenIdx` is `none` exactly on shot lists where no shot
ends on the green. -/
theorem firstGreenIdx_eq_none {l : List Shot}
    (h : ∀ s ∈ l, s.end_lie ≠ "green") : firstGreenIdx l = none := by
  induction l with
  | nil => rfl
  | cons s rest ih =>
    have hs : s.end_lie ≠ "green" := h s (List.mem_cons_self s rest)
    simp only [firstGreenIdx, if_neg hs]
    rw [ih (fun t ht => h t (List.mem_cons_of_mem s ht))]
    rfl

/-- Helper: `girAux` evaluated against the first green index. -/
theorem girAux_eq (par : Int) (l : List Shot) :
    ∀ off : Nat, girAux par off l =
      match firstGreenIdx l with
      | none => false
      | some i => decide (((off : Int) + i + 1) ≤ par - 2) := by
  induction l with
  | nil => intro off; rfl
  | cons s rest ih =>
    intro off
    by_cases hg : s.end_lie = "green"
    · simp [girAux, firstGreenIdx, hg]
    · simp only [girAux, firstGreenIdx, hg, if_neg, beq_iff_eq, if_false]
      rw [ih (off + 1)]
      cases firstGreenIdx rest with
      | none => rfl
      | some i =>
        simp only [Option.map_some]
        congr 1
        push_cast
        ring_nf

/-- C5: for every `Hole`, `gir()` is true iff some shot has
`end_lie == "green"` and the 1-based index of the first such shot is at
most `par - 2`; when no shot reaches the green, `gir()` is `false` (a
genuine boolean, not null). -/
theorem gir_spec (h : Hole) :
    (h.gir = true ↔
      ∃ i, firstGreenIdx h.shots = some i ∧ ((i : Int) + 1) ≤ h.par - 2) ∧
    ((∀ s ∈ h.shots, s.end_lie ≠ "green") → h.gir = false) := by
  have hg := girAux_eq h.par h.shots 0
  constructor
  · rw [Hole.gir, hg]
    cases hf : firstGreenIdx h.shots with
    | none => simp
    | some i => simp
  · intro hnone
    rw [Hole.gir, hg, firstGreenIdx_eq_none hnone]

/-- Witness for C5: a hole that never reaches the green has `gir = false`,
and the three-shot par-4 example reaches the green on shot 2 ≤ par-2. -/
theorem gir_spec_witness :
    Hole.gir ⟨1, 3, 150, [⟨1, some 140, "tee", "left rough", none⟩,
      ⟨2, none, "left rough", "hole", none⟩]⟩ = false ∧
    Hole.gir ⟨2, 4, 400, [exTeeShot, exApproachShot, exHoleOutShot]⟩ = true :=
  ⟨(gir_spec _).2 (by decide),
   (gir_spec _).1.mpr ⟨1, by decide, by decide⟩⟩

/-- C6: for every `Hole`, `fairway_result()` is null exactly when
`par < 4` or the shot list is empty; otherwise it is the direction of the
first shot. -/
theorem fairway_result_spec (h : Hole) :
    (h.fairway_result = none ↔ (h.par < 4 ∨ h.shots = [])) ∧
    (∀ s rest, h.shots = s :: rest → 4 ≤ h.par →
      h.fairway_result = some s.direction) := by
  constructor
  · rcases hs : h.shots with _ | ⟨s, rest⟩
    · simp [Hole.fairway_result, hs]
    · by_cases hp : h.par < 4 <;> simp [Hole.fairway_result, hs, hp]
  · intro s rest hs hp
    have hp4 : ¬ h.par < 4 := Int.not_lt.mpr hp
    simp [Hole.fairway_result, hs, hp4]

/-- Witness for C6: the non-null case on a par-4 hole with a first shot
to the fairway, and the null case on a par-3 hole. -/
theorem fairway_result_spec_witness :
    Hole.fairway_result ⟨1, 4, 400, [exTeeShot]⟩ = some exTeeShot.direction ∧
    Hole.fairway_result ⟨2, 3, 150, [exTeeShot]⟩ = none :=
  ⟨(fairway_result_spec _).2 exTeeShot [] rfl (by decide),
   (fairway_result_spec _).1.mpr (Or.inl (by decide))⟩

/-!  ### Round aggregates: totality and the empty round  -/

/-- Helper: `category()` always lands in the four bucket keys. -/
theorem category_mem_four (s : Shot) :
    s.category = "putting" ∨ s.category = "tee" ∨
    s.category = "approach" ∨ s.category = "short_game" := by
  unfold Shot.category
  split_ifs <;> simp

/-- Helper: the `strokes_by_category` fold never hits a `KeyError`. -/
theorem foldBuckets_isSome (l : List Shot) :
    ∀ b : Buckets,
      (l.foldlM (fun b s => bumpBucket b s.category) b).isSome = true := by
  induction l with
  | nil => intro b; rfl
  | cons s rest ih =>
    intro b
    rcases category_mem_four s with hc | hc | hc | hc <;>
      simp only [List.foldlM_cons, bumpBucket, hc] <;>
      simp only [String.reduceEq, reduceIte, Option.some_bind] <;>
      exact ih _

/-- C7: every Round aggregate (`total_score`, `score_vs_par`,
`total_putts`, `fairway_stats`, `gir_stats`, `directional_bias`,
`strokes_by_category`) is a total function over the stored holes: the
only partial operation, the `strokes_by_category` dict indexing, never
fails; and on a Round with zero holes each aggregate yields a zero or
empty value. -/
theorem aggregates_total_and_empty (r : Round) :
    (r.strokes_by_category).isSome = true ∧
    (r.holes = [] →
      r.total_score = 0 ∧ r.score_vs_par = -r.course_par ∧
      r.total_putts = 0 ∧ r.fairway_stats = [] ∧ r.gir_stats = (0, 0) ∧
      r.directional_bias = [] ∧ r.strokes_by_category = some ⟨0, 0, 0, 0⟩) := by
  refine ⟨foldBuckets_isSome _ _, ?_⟩
  intro hh
  obtain ⟨p, c, hp, cp, holes⟩ := r
  simp only at hh
  subst hh
  exact ⟨rfl, by simp [Round.score_vs_par, Round.total_score], rfl, rfl, rfl,
    rfl, rfl⟩

/-- Witness for C7: the empty-round case evaluated on a concrete round. -/
theorem aggregates_total_and_empty_witness :
    Round.fairway_stats ⟨"p", "c", 9, 36, []⟩ = [] ∧
    Round.strokes_by_category ⟨"p", "c", 9, 36, []⟩ = some ⟨0, 0, 0, 0⟩ :=
  ⟨((aggregates_total_and_empty _).2 rfl).2.2.2.1,
   ((aggregates_total_and_empty _).2 rfl).2.2.2.2.2.2⟩

/-!  ### Frequency tables: ordering and counts  -/

/-- Helper: membership in the dedup accumulator. -/
theorem mem_uniqueFirstAux (xs : List String) :
    ∀ seen k, k ∈ uniqueFirstAux seen xs ↔ (k ∈ xs ∧ k ∉ seen) := by
  induction xs with
  | nil => intro seen k; simp [uniqueFirstAux]
  | cons x xs ih =>
    intro seen k
    by_cases hx : x ∈ seen
    · rw [uniqueFirstAux, if_pos hx, ih]
      constructor
      · rintro ⟨hk, hks⟩; exact ⟨List.mem_cons_of_mem _ hk, hks⟩
      · rintro ⟨hk, hks⟩
        rcases List.mem_cons.mp hk with rfl | hk
        · exact absurd hx hks
        · exact ⟨hk, hks⟩
    · rw [uniqueFirstAux, if_neg hx]
      rw [List.mem_cons, ih]
      constructor
      · rintro (rfl | ⟨hk, hks⟩)
        · exact ⟨List.mem_cons_self _ _, hx⟩
        · exact ⟨List.mem_cons_of_mem _ hk,
            fun hs => hks (List.mem_cons_of_mem _ hs)⟩
      · rintro ⟨hk, hks⟩
        rcases List.mem_cons.mp hk with rfl | hk
        · exact Or.inl rfl
        · by_cases hkx : k = x
          · exact Or.inl hkx
          · refine Or.inr ⟨hk, fun hs => ?_⟩
            rcases List.mem_cons.mp hs with h | h
            · exact hkx h
            · exact hks h

/-- Helper: the dedup accumulator produces no duplicates. -/
theorem nodup_uniqueFirstAux (xs : List String) :
    ∀ seen, (uniqueFirstAux seen xs).Nodup := by
  induction xs with
  | nil => intro _; exact List.nodup_nil
  | cons x xs ih =>
    intro seen
    by_cases hx : x ∈ seen
    · rw [uniqueFirstAux, if_pos hx]; exact ih seen
    · rw [uniqueFirstAux, if_neg hx]
      refine List.nodup_cons.mpr ⟨?_, ih _⟩
      intro hmem
      exact ((mem_uniqueFirstAux xs _ x).mp hmem).2 (List.mem_cons_self x seen)

theorem mem_uniqueFirst {xs : List String} {k : String} :
    k ∈ uniqueFirst xs ↔ k ∈ xs := by
  rw [uniqueFirst, mem_uniqueFirstAux]
  simp

theorem nodup_uniqueFirst (xs : List String) : (uniqueFirst xs).Nodup :=
  nodup_uniqueFirstAux xs []

/-- Helper: a value-counts table is ordered by strictly descending count,
ties broken by strictly increasing first-occurrence index in the input
list. -/
theorem value_counts_sorted (xs : List String) :
    List.Pairwise (fun p q : String × Nat =>
      q.2 < p.2 ∨ (p.2 = q.2 ∧ xs.indexOf p.1 < xs.indexOf q.1))
      (value_counts xs) := by
  classical
  set keyed := (uniqueFirst xs).map (fun k => (k, xs.count k, xs.indexOf k))
    with hkeyed
  have hsorted : List.Sorted vcRel (List.insertionSort vcRel keyed) :=
    List.sorted_insertionSort vcRel keyed
  have hperm : List.Perm (List.insertionSort vcRel keyed) keyed :=
    List.perm_insertionSort vcRel keyed
  have hP : ∀ t ∈ List.insertionSort vcRel keyed,
      t.1 ∈ xs ∧ t.2.1 = xs.count t.1 ∧ t.2.2 = xs.indexOf t.1 := by
    intro t ht
    have ht' : t ∈ keyed := hperm.mem_iff.mp ht
    rw [hkeyed] at ht'
    rcases List.mem_map.mp ht' with ⟨k, hk, rfl⟩
    exact ⟨mem_uniqueFirst.mp hk, rfl, rfl⟩
  have hfst : keyed.map Prod.fst = uniqueFirst xs := by
    rw [hkeyed, List.map_map]
    exact List.map_id _
  have hnd : ((List.insertionSort vcRel keyed).map Prod.fst).Nodup :=
    ((hperm.map Prod.fst).nodup_iff).mpr (hfst ▸ nodup_uniqueFirst xs)
  have hne : List.Pairwise (fun a b : String × Nat × Nat => a.1 ≠ b.1)
      (List.insertionSort vcRel keyed) := List.pairwise_map.mp hnd
  have hcomb := hsorted.and hne
  rw [value_counts, ← hkeyed]
  apply List.pairwise_map.mpr
  refine List.Pairwise.imp_of_mem ?_ hcomb
  intro a b ha hb hab
  obtain ⟨hmema, hca, hia⟩ := hP a ha
  obtain ⟨hmemb, hcb, hib⟩ := hP b hb
  obtain ⟨hrel, hne1⟩ := hab
  rcases hrel with hlt | ⟨heq, hle⟩
  · exact Or.inl hlt
  · refine Or.inr ⟨heq, ?_⟩
    rw [hia, hib] at hle
    rcases lt_or_eq_of_le hle with h | h
    · exact h
    · exact absurd ((List.indexOf_inj hmema hmemb).mp h) hne1

/-- Total count recorded in a frequency table under key `k`. -/
def tableCount (k : String) : List (String × Nat) → Nat
  | [] => 0
  | p :: rest => (if p.1 = k then p.2 else 0) + tableCount k rest

theorem tableCount_eq_sum (k : String) (l : List (String × Nat)) :
    tableCount k l = (l.map (fun p => if p.1 = k then p.2 else 0)).sum := by
  induction l with
  | nil => rfl
  | cons p rest ih => simp [tableCount, ih]

theorem tableCount_perm {l l' : List (String × Nat)} (h : List.Perm l l')
    (k : String) : tableCount k l = tableCount k l' := by
  rw [tableCount_eq_sum, tableCount_eq_sum]
  exact (h.map _).sum_eq

/-- Helper: on a nodup key list annotated by `g`, the table count of `k`
is `g k` when `k` occurs, else 0. -/
theorem tableCount_map_self (g : String → Nat) (k : String) :
    ∀ l : List String, l.Nodup →
      tableCount k (l.map (fun x => (x, g x))) =
        if k ∈ l then g k else 0 := by
  intro l
  induction l with
  | nil => intro _; simp [tableCount]
  | cons a l ih =>
    intro hnd
    rcases List.nodup_cons.mp hnd with ⟨ha, hnd'⟩
    by_cases hak : a = k
    · subst hak
      simp only [List.map_cons, tableCount, if_pos rfl, ih hnd']
      simp [ha]
    · simp only [List.map_cons, tableCount, if_neg hak, ih hnd']
      have hka : ¬ k = a := fun h => hak h.symm
      simp [List.mem_cons, hka]

/-- Helper: `value_counts` records under `k` exactly the number of
occurrences of `k` in its input. -/
theorem tableCount_value_counts (xs : List String) (k : String) :
    tableCount k (value_counts xs) = xs.count k := by
  rw [value_counts,
    tableCount_perm ((List.perm_insertionSort vcRel _).map _) k,
    List.map_map]
  have hcomp : ((fun t : String × Nat × Nat => (t.1, t.2.1)) ∘
      (fun k' => (k', xs.count k', xs.indexOf k'))) =
      (fun k' => (k', xs.count k')) := rfl
  rw [hcomp, tableCount_map_self (fun k' => xs.count k') k _
    (nodup_uniqueFirst xs)]
  by_cases hk : k ∈ xs
  · simp [mem_uniqueFirst, hk]
  · simp [mem_uniqueFirst, hk, List.count_eq_zero.mpr hk]

/-- C1: the frequency-table aggregates `fairway_stats()` and
`directional_bias()` return their entries ordered by descending
frequency, ties between equal-frequency keys broken by first occurrence
in the input sequence, and each entry records the exact frequency of its
key — so the same input sequence always yields the same output
ordering. -/
theorem freq_tables_sorted (r : Round) :
    (List.Pairwise (fun p q : String × Nat =>
        q.2 < p.2 ∨ (p.2 = q.2 ∧
          r.fairwayResults.indexOf p.1 < r.fairwayResults.indexOf q.1))
      r.fairway_stats ∧
      ∀ k, tableCount k r.fairway_stats = r.fairwayResults.count k) ∧
    (List.Pairwise (fun p q : String × Nat =>
        q.2 < p.2 ∨ (p.2 = q.2 ∧
          r.biasDirs.indexOf p.1 < r.biasDirs.indexOf q.1))
      r.directional_bias ∧
      ∀ k, tableCount k r.directional_bias = r.biasDirs.count k) :=
  ⟨⟨value_counts_sorted _, fun k => tableCount_value_counts _ k⟩,
   ⟨value_counts_sorted _, fun k => tableCount_value_counts _ k⟩⟩

/-!  ### The fairway bunker label  -/

/-- Helper: a shot into the fairway bunker has direction `"unknown"`. -/
theorem direction_fairway_bunker (s : Shot)
    (h : s.end_lie = "fairway bunker") : s.direction = "unknown" := by
  unfold Shot.direction
  rw [h]
  decide

/-- Helper: every fairway-bunker shot contributes an `"unknown"` entry
to the direction list that `directional_bias` counts. -/
theorem count_unknown_ge (l : List Shot) :
    (l.filter (fun s => s.end_lie == "fairway bunker")).length ≤
      ((l.map Shot.direction).filter
        (fun d => !(d == "center" || d == "hole"))).count "unknown" := by
  induction l with
  | nil => simp
  | cons s rest ih =>
    simp only [List.map_cons, List.filter_cons]
    by_cases hfb : (s.end_lie == "fairway bunker") = true
    · have hdir := direction_fairway_bunker s (by simpa using hfb)
      rw [hdir, if_pos hfb, if_pos (by decide :
        (!(("unknown" : String) == "center" || ("unknown" : String) == "hole"))
          = true)]
      rw [List.length_cons, List.count_cons_self]
      exact Nat.add_le_add_right ih 1
    · rw [if_neg hfb]
      by_cases hpass :
          (!(s.direction == "center" || s.direction == "hole")) = true
      · rw [if_pos hpass, List.count_cons]
        exact le_trans ih (Nat.le_add_right _ _)
      · rw [if_neg hpass]
        exact ih

/-- C10: `"fairway bunker"` is an `end_lie` the entry flow can produce;
a shot with that `end_lie` has `direction() = "unknown"` (no directional
keyword is a substring and the label is not exactly `fairway`, `green`
or `hole`); and such shots are counted under the `"unknown"` key of
`directional_bias()` rather than excluded. -/
theorem fairway_bunker_counted :
    "fairway bunker" ∈ entryEndLies ∧
    (∀ s : Shot, s.end_lie = "fairway bunker" → s.direction = "unknown") ∧
    (∀ r : Round,
      (r.allShots.filter (fun s => s.end_lie == "fairway bunker")).length ≤
        tableCount "unknown" r.directional_bias) := by
  refine ⟨by decide, direction_fairway_bunker, fun r => ?_⟩
  rw [Round.directional_bias, tableCount_value_counts, Round.biasDirs]
  exact count_unknown_ge _

/-- Witness for C10: the fairway-bunker direction evaluated on a
concrete shot. -/
theorem fairway_bunker_counted_witness :
    Shot.direction ⟨2, some 150, "fairway", "fairway bunker", none⟩ =
      "unknown" :=
  fairway_bunker_counted.2.1 _ rfl

/-!  ### Reachability of session states  -/

/-- Helper: a state reached by running a trace from a reachable state is
reachable. -/
theorem reachable_of_runTrace {st st' : AppState} {es : List Event}
    (h : Reachable st) (he : runTrace st es = some st') : Reachable st' := by
  induction es generalizing st with
  | nil =>
    rw [runTrace] at he
    cases he
    exact h
  | cons e es ih =>
    rw [runTrace] at he
    cases hst : step st e with
    | none => simp only [hst] at he; cases he
    | some st1 =>
      simp only [hst] at he
      exact ih (Reachable.next h hst) he

/-- The five interactions that overrun `holes_played = 1`: set up a
one-hole round, hole out on hole 1, then start and hole out a second
hole — nothing in the handlers stops it. -/
def c2Trace : List Event :=
  [.setupRound "p" "c" 1 9, .startHole 3 100, .addShot "hole" 0 0,
   .startHole 3 100, .addShot "hole" 0 0]

/-- The state the trace ends in. -/
def c2Final : AppState :=
  ⟨some ⟨"p", "c", 1, 9,
     [⟨1, 3, 100, [⟨1, some 0, "tee", "hole", none⟩]⟩,
      ⟨2, 3, 100, [⟨1, some 0, "tee", "hole", none⟩]⟩]⟩,
   3, 1, none⟩

/-- C2 fails on the code: after the round's hole count has reached
`holes_played`, the machine still accepts a "start hole" and an
"add shot" interaction, and the round grows past `holes_played` — there
is no terminal state.  The spec's stop condition is the clear intent
(`holes_played` is collected and bounded 1–18 but never consulted by the
handlers), so this is a code bug, witnessed by evaluating the entry
handlers on the concrete five-interaction trace. -/
theorem holes_played_overrun :
    ∃ st : AppState, runTrace initState c2Trace = some st ∧ Reachable st ∧
      ∃ r, st.round = some r ∧ r.holes_played = 1 ∧ r.holes.length = 2 := by
  refine ⟨c2Final, by decide,
    @reachable_of_runTrace initState c2Final c2Trace Reachable.init (by decide),
    ?_⟩
  exact ⟨_, rfl, rfl, rfl⟩

/-!  ### Entry invariants: completed holes and chained lies  -/

/-- The lie the ball rests on after a list of shots, starting from
`prev`. -/
def lastLie (prev : String) : List Shot → String
  | [] => prev
  | s :: rest => lastLie s.end_lie rest

/-- Shots numbered consecutively from `n`, each starting where the
previous shot ended (`prev` before the first). -/
def chainedFrom (n : Int) (prev : String) : List Shot → Prop
  | [] => True
  | s :: rest =>
    s.shot_number = n ∧ s.start_lie = prev ∧ chainedFrom (n + 1) s.end_lie rest

/-- A completed hole: the last shot has `end_lie == "hole"` and no
earlier shot does. -/
def holeComplete (h : Hole) : Prop :=
  ∃ last, h.shots.getLast? = some last ∧ last.end_lie = "hole" ∧
    ∀ s ∈ h.shots.dropLast, s.end_lie ≠ "hole"

/-- The invariant every transition of the entry machine maintains. -/
structure Inv (st : AppState) : Prop where
  cur : ∀ h, st.current_hole_obj = some h →
    h.shots.length + 1 = st.current_shot ∧
    chainedFrom 1 "tee" h.shots ∧
    ∀ s ∈ h.shots, s.end_lie ≠ "hole"
  stored : ∀ h ∈ st.roundHoles, chainedFrom 1 "tee" h.shots ∧ holeComplete h

/-- Helper: the last element's `end_lie` is the running lie. -/
theorem lastLie_getLast? :
    ∀ (l : List Shot) (prev : String), l ≠ [] →
      (l.getLast?).map Shot.end_lie = some (lastLie prev l) := by
  intro l
  induction l with
  | nil => intro prev hne; exact absurd rfl hne
  | cons a l ih =>
    intro prev _
    cases l with
    | nil => rfl
    | cons b l' =>
      rw [List.getLast?_cons_cons]
      exact ih a.end_lie (List.cons_ne_nil b l')

/-- Helper: appending the next correctly-derived shot keeps the chain. -/
theorem chainedFrom_append (s : Shot) :
    ∀ (l : List Shot) (n : Int) (prev : String),
      chainedFrom n prev l →
      s.shot_number = n + l.length → s.start_lie = lastLie prev l →
      chainedFrom n prev (l ++ [s]) := by
  intro l
  induction l with
  | nil =>
    intro n prev _ hn hs
    refine ⟨?_, hs, trivial⟩
    simpa using hn
  | cons a l ih =>
    intro n prev h hn hs
    obtain ⟨ha, has, htail⟩ := h
    refine ⟨ha, has, ih (n + 1) a.end_lie htail ?_ hs⟩
    rw [hn, List.length_cons]
    push_cast
    ring

/-- Helper: the head of a chained shot list. -/
theorem chainedFrom_head {n : Int} {prev : String} {l : List Shot}
    (h : chainedFrom n prev l) :
    ∀ s, l.head? = some s → s.start_lie = prev ∧ s.shot_number = n := by
  cases l with
  | nil => intro s hs; cases hs
  | cons a l =>
    intro s hs
    cases hs
    exact ⟨h.2.1, h.1⟩

/-- Helper: chained shots form a chain of adjacent lies. -/
theorem chainedFrom_chain :
    ∀ {l : List Shot} {n : Int} {prev : String}, chainedFrom n prev l →
      List.Chain' (fun a b => b.start_lie = a.end_lie) l := by
  intro l
  induction l with
  | nil => intro n prev _; exact List.chain'_nil
  | cons a l ih =>
    intro n prev h
    obtain ⟨-, -, htail⟩ := h
    cases l with
    | nil => exact List.chain'_singleton a
    | cons b l' =>
      exact List.chain'_cons.mpr ⟨htail.2.1, ih htail⟩

/-- Helper: shot numbers in a chain are bounded below by the start. -/
theorem chainedFrom_le :
    ∀ {l : List Shot} {n : Int} {prev : String}, chainedFrom n prev l →
      ∀ s ∈ l, n ≤ s.shot_number := by
  intro l
  induction l with
  | nil => intro n prev _ s hs; cases hs
  | cons a l ih =>
    intro n prev h s hs
    obtain ⟨ha, -, htail⟩ := h
    rcases List.mem_cons.mp hs with rfl | hs
    · rw [ha]
    · exact le_trans (by omega) (ih htail s hs)

/-- Helper: the initial state satisfies the invariant. -/
theorem inv_initState : Inv initState := by
  refine ⟨?_, ?_⟩
  · intro h hh
    exact Option.noConfusion hh
  · intro h hh
    exact absurd hh (List.not_mem_nil h)

/-- Helper: every transition preserves the invariant. -/
theorem inv_step {st st' : AppState} {e : Event} (inv : Inv st)
    (h : step st e = some st') : Inv st' := by
  cases e with
  | setupRound player course hp cp =>
    simp only [step, stepSetup] at h
    cases hr : st.round with
    | some r =>
      simp only [hr] at h
      exact Option.noConfusion h
    | none =>
      simp only [hr] at h
      by_cases hcond : player ≠ "" ∧ course ≠ "" ∧ 1 ≤ hp ∧ hp ≤ 18 ∧
          9 ≤ cp ∧ cp ≤ 72
      · rw [if_pos hcond] at h
        cases h
        refine ⟨?_, ?_⟩
        · intro hobj hh
          exact inv.cur hobj hh
        · intro hl hh
          exact absurd hh (List.not_mem_nil hl)
      · rw [if_neg hcond] at h
        exact Option.noConfusion h
  | startHole par yardage =>
    simp only [step, stepStartHole] at h
    cases hr : st.round with
    | none => simp only [hr] at h; exact Option.noConfusion h
    | some rnd =>
      cases hcho : st.current_hole_obj with
      | some hobj => simp only [hr, hcho] at h; exact Option.noConfusion h
      | none =>
        simp only [hr, hcho] at h
        by_cases hcond : 3 ≤ par ∧ par ≤ 5 ∧ 50 ≤ yardage ∧ yardage ≤ 800
        · rw [if_pos hcond] at h
          cases h
          refine ⟨?_, ?_⟩
          · intro hobj hh
            cases hh
            refine ⟨rfl, trivial, ?_⟩
            intro s hs
            exact absurd hs (List.not_mem_nil s)
          · intro hl hh
            refine inv.stored hl ?_
            rw [AppState.roundHoles, hr]
            exact hh
        · rw [if_neg hcond] at h
          exact Option.noConfusion h
  | addShot end_lie dist dth =>
    simp only [step, stepAddShot] at h
    cases hr : st.round with
    | none => simp only [hr] at h; exact Option.noConfusion h
    | some rnd =>
      cases hcho : st.current_hole_obj with
      | none => simp only [hr, hcho] at h; exact Option.noConfusion h
      | some hobj =>
        simp only [hr, hcho] at h
        obtain ⟨hlen, hchain, hnohole⟩ := inv.cur hobj hcho
        by_cases hguard : end_lie ∈ entryEndLies ∧ 0 ≤ dist ∧ 0 ≤ dth
        case neg =>
          rw [if_neg hguard] at h
          exact Option.noConfusion h
        rw [if_pos hguard] at h
        split at h
        · exact Option.noConfusion h
        next start_lie heq =>
          have hstart : start_lie = lastLie "tee" hobj.shots := by
            by_cases h1 : st.current_shot = 1
            · rw [if_pos h1] at heq
              have h0 : hobj.shots = [] := by
                rw [h1] at hlen
                exact List.length_eq_zero.mp (by omega)
              cases heq
              rw [h0]
              rfl
            · rw [if_neg h1] at heq
              have hne : hobj.shots ≠ [] := by
                intro h0
                rw [h0] at hlen
                exact h1 (by simpa using hlen.symm)
              rw [lastLie_getLast? hobj.shots "tee" hne] at heq
              cases heq
              rfl
          have hnum :
              (mkShot st.current_shot start_lie end_lie dist dth).shot_number
                = 1 + (hobj.shots.length : Int) := by
            show (st.current_shot : Int) = 1 + (hobj.shots.length : Int)
            omega
          have hchain' : chainedFrom 1 "tee" (hobj.shots ++
              [mkShot st.current_shot start_lie end_lie dist dth]) :=
            chainedFrom_append _ hobj.shots 1 "tee" hchain hnum hstart
          by_cases hhole : end_lie = "hole"
          · rw [if_pos hhole] at h
            cases h
            refine ⟨?_, ?_⟩
            · intro h2 hh
              exact Option.noConfusion hh
            · intro hl hh
              have hh' : hl ∈ rnd.holes ++
                  [{ hobj with shots := hobj.shots ++
                    [mkShot st.current_shot start_lie end_lie dist dth] }] := hh
              rcases List.mem_append.mp hh' with hmem | hmem
              · refine inv.stored hl ?_
                rw [AppState.roundHoles, hr]
                exact hmem
              · rcases List.mem_singleton.mp hmem with rfl
                refine ⟨hchain',
                  mkShot st.current_shot start_lie end_lie dist dth,
                  List.getLast?_concat _, hhole, ?_⟩
                intro s hs
                rw [List.dropLast_concat] at hs
                exact hnohole s hs
          · rw [if_neg hhole] at h
            cases h
            refine ⟨?_, ?_⟩
            · intro h2 hh
              cases hh
              refine ⟨?_, hchain', ?_⟩
              · simp only [List.length_append, List.length_cons,
                  List.length_nil]
                omega
              · intro s hs
                rcases List.mem_append.mp hs with hs | hs
                · exact hnohole s hs
                · rcases List.mem_singleton.mp hs with rfl
                  exact hhole
            · intro hl hh
              refine inv.stored hl ?_
              rw [AppState.roundHoles, hr]
              exact hh

/-- Helper: every reachable state satisfies the invariant. -/
theorem reachable_inv {st : AppState} (h : Reachable st) : Inv st := by
  induction h with
  | init => exact inv_initState
  | next _ hstep ih => exact inv_step ih hstep

/-- C8: in every reachable state, every Hole stored in the Round has
exactly one Shot with `end_lie == "hole"` and that Shot is the last of
its sequence, while a Hole without a terminal shot only ever lives in
`current_hole_obj`, outside the Round. -/
theorem stored_holes_terminal {st : AppState} (h : Reachable st) :
    (∀ hl ∈ st.roundHoles,
      (hl.shots.filter (fun s => s.end_lie == "hole")).length = 1 ∧
      ∃ last, hl.shots.getLast? = some last ∧ last.end_lie = "hole") ∧
    (∀ hl, st.current_hole_obj = some hl →
      ∀ s ∈ hl.shots, s.end_lie ≠ "hole") := by
  have inv := reachable_inv h
  refine ⟨?_, ?_⟩
  · intro hl hmem
    obtain ⟨-, last, hlast, hend, hrest⟩ := inv.stored hl hmem
    refine ⟨?_, last, hlast, hend⟩
    have hdecomp : hl.shots.dropLast ++ [last] = hl.shots :=
      List.dropLast_append_getLast? last (Option.mem_def.mpr hlast)
    rw [← hdecomp, List.filter_append]
    have h1 : hl.shots.dropLast.filter (fun s => s.end_lie == "hole") = [] := by
      rw [List.filter_eq_nil_iff]
      intro s hs
      simpa using hrest s hs
    rw [h1]
    simp [hend]
  · intro hl hh
    exact (inv.cur hl hh).2.2

/-- C9: in every reachable state, every hole — stored in the round or in
progress — has shots whose `start_lie` is derived, not user input:
adjacent shots chain (`start_lie` equals the previous shot's `end_lie`),
the first shot starts at `"tee"` and carries number 1, and a shot with
number 1 always starts at `"tee"`. -/
theorem start_lie_derived {st : AppState} (h : Reachable st) :
    ∀ hl, (hl ∈ st.roundHoles ∨ st.current_hole_obj = some hl) →
      List.Chain' (fun a b => b.start_lie = a.end_lie) hl.shots ∧
      (∀ s, hl.shots.head? = some s →
        s.start_lie = "tee" ∧ s.shot_number = 1) ∧
      (∀ s ∈ hl.shots, s.shot_number = 1 → s.start_lie = "tee") := by
  have inv := reachable_inv h
  intro hl hmem
  have hchain : chainedFrom 1 "tee" hl.shots := by
    rcases hmem with hmem | hmem
    · exact (inv.stored hl hmem).1
    · exact (inv.cur hl hmem).2.1
  refine ⟨chainedFrom_chain hchain, chainedFrom_head hchain, ?_⟩
  intro s hs h1
  cases hsh : hl.shots with
  | nil => rw [hsh] at hs; exact absurd hs (List.not_mem_nil s)
  | cons a rest =>
    rw [hsh] at hs hchain
    obtain ⟨ha, hstart, htail⟩ := hchain
    rcases List.mem_cons.mp hs with rfl | hs
    · exact hstart
    · have := chainedFrom_le htail s hs
      omega

/-- Four interactions producing a round with one completed stored hole:
used by the state-machine witnesses. -/
def exTrace : List Event :=
  [.setupRound "p" "c" 2 18, .startHole 4 400, .addShot "fairway" 250 0,
   .addShot "hole" 10 0]

/-- The hole those interactions store in the round. -/
def exStoredHole : Hole :=
  ⟨1, 4, 400, [⟨1, some 250, "tee", "fairway", none⟩,
               ⟨2, some 10, "fairway", "hole", none⟩]⟩

/-- The state those interactions end in. -/
def exState : AppState := ⟨some ⟨"p", "c", 2, 18, [exStoredHole]⟩, 2, 1, none⟩

/-- Helper: the example state is reachable. -/
theorem exState_reachable : Reachable exState :=
  @reachable_of_runTrace initState exState exTrace Reachable.init (by decide)

/-- Witness for C8: the terminal-shot count evaluated on the concrete
stored hole of a concrete reachable state. -/
theorem stored_holes_terminal_witness :
    (exStoredHole.shots.filter (fun s => s.end_lie == "hole")).length = 1 :=
  ((stored_holes_terminal exState_reachable).1 exStoredHole (by decide)).1

/-- Witness for C9: the derived `start_lie` chain evaluated on the
concrete stored hole of a concrete reachable state. -/
theorem start_lie_derived_witness :
    List.Chain' (fun a b => b.start_lie = a.end_lie) exStoredHole.shots ∧
    (∀ s ∈ exStoredHole.shots, s.shot_number = 1 → s.start_lie = "tee") :=
  ⟨(start_lie_derived exState_reachable exStoredHole (Or.inl (by decide))).1,
   (start_lie_derived exState_reachable exStoredHole (Or.inl (by decide))).2.2⟩

end GolfTracker
